import Mathlib

set_option linter.unusedVariables false
set_option maxHeartbeats 1000000

namespace XV6

/-! A shallow embedding of the two core kernel files of this repository:
kernel/kalloc.c, the per-CPU physical page allocator, and kernel/bio.c,
the sharded buffer cache. Machine pointers become list positions, struct
fields become record fields, and the spinlock state is carried explicitly
where a statement speaks about locks. All functions are executable. -/

/-! Model of kernel/kalloc.c. -/

/-- PGSIZE from riscv.h: bytes per page. -/
def PGSIZE : Nat := 4096

/-- The per-CPU freelists: entry i is the freelist of kmems[i], each free
frame represented by its physical address. -/
abbrev KmemSt := List (List Nat)

/-- kfree(pa) called on the CPU with id cpu: panic when pa is not
page-aligned, lies below the kernel image end, or at or above PHYSTOP;
otherwise push the frame onto the calling CPU's freelist. -/
def kfree (endA physTop pa cpu : Nat) (km : KmemSt) : Except Unit KmemSt :=
  if ¬ pa % PGSIZE = 0 ∨ pa < endA ∨ physTop ≤ pa then Except.error ()
  else Except.ok (km.set cpu (pa :: km.getD cpu []))

/-- The stealing loop of kalloc: visit the CPU ids of the list in order,
skipping the caller; a CPU id equal to NCPU-1 whose freelist is empty
returns null early, exactly as the source writes it. -/
def stealFrom (ncpu cpu : Nat) (km : KmemSt) : List Nat → Option (Nat × KmemSt)
  | [] => none
  | i :: rest =>
    if i = cpu then stealFrom ncpu cpu km rest
    else if i = ncpu - 1 ∧ km.getD i [] = [] then none
    else
      match km.getD i [] with
      | [] => stealFrom ncpu cpu km rest
      | h :: t => some (h, km.set i t)

/-- kalloc(): pop the head of the caller's freelist; when it is empty,
steal one frame from the other CPUs, visited in ascending order. -/
def kalloc (ncpu cpu : Nat) (km : KmemSt) : Option (Nat × KmemSt) :=
  match km.getD cpu [] with
  | h :: t => some (h, km.set cpu t)
  | [] => stealFrom ncpu cpu km (List.range ncpu)

/-- The order in which kalloc inspects the freelists: the caller first,
then every other CPU in ascending order. -/
def visitOrder (ncpu cpu : Nat) : List Nat :=
  cpu :: (List.range ncpu).filter (fun i => i != cpu)

/-- Spec-side description of alloc, written from the spec's words and to
be compared with kalloc: return the head frame of the first nonempty
freelist in visit order, and null exactly when every freelist is empty. -/
def kallocSpec (ncpu cpu : Nat) (km : KmemSt) : Option (Nat × KmemSt) :=
  match (visitOrder ncpu cpu).find? (fun i => !(km.getD i []).isEmpty) with
  | none => none
  | some i =>
    match km.getD i [] with
    | [] => none
    | h :: t => some (h, km.set i t)

/-! Model of kernel/bio.c. -/

/-- NBUK from bio.c. -/
def NBUK : Nat := 13

/-- One struct buf. The field idx is the index of the buf inside the
bcache.buf array; it identifies the object while it moves between
buckets. The field slock says whether the caller holds the buffer's
sleeplock. struct buf itself is declared in buf.h, which is not part of
this tree; the refcnt field is modelled from the spec, whose data model
gives refcnt as an int, hence Int here. -/
structure Buf where
  idx : Nat
  dev : Nat
  blockno : Nat
  valid : Bool
  refcnt : Int
  timestamp : Nat
  slock : Bool
  deriving Repr, DecidableEq, Inhabited

/-- The buffer cache: nbuk bucket chains, bucket i being the chain hanging
off bcache.buckets[i].head.next. -/
structure Cache where
  nbuk : Nat
  buckets : List (List Buf)
  deriving Repr, DecidableEq

/-- hash(dev, blockno) = (dev * blockno) % NBUK, the product taken in the
C unsigned 32-bit arithmetic of the source. -/
def hash (nbuk dev blockno : Nat) : Nat := dev * blockno % 4294967296 % nbuk

/-- The buf j links after the head of bucket i, if any. -/
def elemAt (c : Cache) (i j : Nat) : Option Buf := (c.buckets.getD i [])[j]?

/-- Replace the chain of bucket i. -/
def setBucket (c : Cache) (i : Nat) (ch : List Buf) : Cache :=
  { c with buckets := c.buckets.set i ch }

/-- What the hit path of bget does to the matched buf: refcnt++ under the
bucket lock, then acquiresleep. -/
def bump (b : Buf) : Buf := { b with refcnt := b.refcnt + 1, slock := true }

/-- The chain walk of bget that looks for a cached block: on the first
match, bump its refcnt and acquire its sleeplock; return the rewritten
chain and the matched buf. -/
def findHit (dev blockno : Nat) : List Buf → Option (List Buf × Buf)
  | [] => none
  | b :: bs =>
    if b.dev = dev ∧ b.blockno = blockno then
      some (bump b :: bs, bump b)
    else
      match findHit dev blockno bs with
      | none => none
      | some (bs2, r) => some (b :: bs2, r)

/-- Which spinlocks are held: evict is bcache.lock, bks the bucket locks. -/
structure LockSt where
  evict : Bool
  bks : List Nat
  deriving Repr, DecidableEq

/-- Acquire the lock of bucket i. -/
def acqB (i : Nat) (ls : LockSt) : LockSt := { ls with bks := i :: ls.bks }

/-- Release the lock of bucket i. -/
def relB (i : Nat) (ls : LockSt) : LockSt := { ls with bks := ls.bks.erase i }

/-- Acquire bcache.lock. -/
def acqE (ls : LockSt) : LockSt := { ls with evict := true }

/-- Release bcache.lock. -/
def relE (ls : LockSt) : LockSt := { ls with evict := false }

/-- The two kinds of bucket-membership change bget performs. -/
inductive MKind where
  | unlink
  | splice
  deriving Repr, DecidableEq

/-- A record of one bucket-membership change: which chain was rewritten,
and which locks were held at that moment. -/
structure MutRec where
  kind : MKind
  bucket : Nat
  evictHeld : Bool
  bucketHeld : Bool
  deriving Repr, DecidableEq

/-- The inner loop of the eviction scan, over the chain of bucket i
starting j links after the head: track max_timestamp and the position of
the current LRU candidate; the Bool is the is_better flag of the source,
set when this chain improved the candidate. -/
def walkChain (i : Nat) : Nat → Nat → Option (Nat × Nat) → Bool → List Buf →
    Nat × Option (Nat × Nat) × Bool
  | _, m, cand, better, [] => (m, cand, better)
  | j, m, cand, better, b :: bs =>
    if b.refcnt = 0 ∧ m ≤ b.timestamp then
      walkChain i (j + 1) b.timestamp (some (i, j)) true bs
    else
      walkChain i (j + 1) m cand better bs

/-- The lock moves of one iteration of the eviction scan over bucket i:
the lock of bucket i is acquired before the walk; afterwards, when this
bucket improved the candidate (is_better), the previous candidate's
bucket lock is released and i's is kept, else i's is released. The
candidate before the walk names the previously kept lock. -/
def scanLockStep (i : Nat) (cand : Option (Nat × Nat)) (ls : LockSt)
    (better : Bool) : LockSt :=
  if better then
    match cand with
    | some (li, _) => relB li (acqB i ls)
    | none => acqB i ls
  else relB i (acqB i ls)

/-- The outer loop of the eviction scan, from bucket i on: walk each
bucket's chain under its lock, keeping the candidate's bucket lock held
across iterations exactly as the source does. -/
def scanBuckets : Nat → Nat → Option (Nat × Nat) → LockSt → List (List Buf) →
    Option (Nat × Nat) × LockSt
  | _, _, cand, ls, [] => (cand, ls)
  | i, m, cand, ls, chain :: rest =>
    match walkChain i 0 m cand false chain with
    | (m2, cand2, better) =>
      scanBuckets (i + 1) m2 cand2 (scanLockStep i cand ls better) rest

/-- The whole eviction scan as bget runs it: all buckets from bucket 0,
max_timestamp 0, no candidate, no lock held (the fast path released the
target bucket's lock before the scan starts). -/
def scanTop (c : Cache) : Option (Nat × Nat) × LockSt :=
  scanBuckets 0 0 none ⟨false, []⟩ c.buckets

/-- Fatal outcomes of bget. nullDeref is the dereference of the null
prev_lru_b pointer in the line lru_b = prev_lru_b->next, taken when the
scan found no candidate (a kernel page fault); panicNoBuffers is the call
panic("bget: no buffers"). -/
inductive BErr where
  | nullDeref
  | panicNoBuffers
  deriving Repr, DecidableEq

/-- lru_b = prev_lru_b->next: the buf the scan left its predecessor
pointer at, position lj of bucket li. -/
def lruAt (c : Cache) (li lj : Nat) : Buf := (c.buckets.getD li []).getD lj default

/-- prev_lru_b->next = prev_lru_b->next->next: the candidate unlinked from
its source bucket li. -/
def cUnlink (c : Cache) (li lj : Nat) : Cache :=
  setBucket c li ((c.buckets.getD li []).eraseIdx lj)

/-- The candidate spliced at the head of the target bucket. -/
def cSplice (c : Cache) (bukId li lj : Nat) : Cache :=
  setBucket (cUnlink c li lj) bukId
    (lruAt c li lj :: (cUnlink c li lj).buckets.getD bukId [])

/-- The identity reassignment of the install path: dev, blockno, valid
and refcnt rewritten, then the sleeplock acquired. -/
def installBuf (dev blockno : Nat) (lb : Buf) : Buf :=
  { lb with dev := dev, blockno := blockno, valid := false, refcnt := 1, slock := true }

/-- The miss path of bget, entered after the fast path failed and the
eviction scan returned the candidate and the lock state: dereference
prev_lru_b (a fault when the scan found nothing), unlink the candidate
from its source bucket, release that bucket's lock, take bcache.lock and
the target bucket's lock, splice the candidate in, re-check the target
bucket, and otherwise install the new identity. The returned list records
each chain rewrite together with the locks held at that point. -/
def bgetMiss (dev blockno bukId : Nat) (c : Cache) :
    Option (Nat × Nat) × LockSt → Except BErr (Buf × Cache) × List MutRec
  | (none, _) => (Except.error BErr.nullDeref, [])
  | (some (li, lj), ls) =>
    let lru := lruAt c li lj
    let mut1 : MutRec := ⟨MKind.unlink, li, ls.evict, ls.bks.contains li⟩
    let ls2 := acqB bukId (acqE (relB li ls))
    let mut2 : MutRec := ⟨MKind.splice, bukId, ls2.evict, ls2.bks.contains bukId⟩
    let c2 := cSplice c bukId li lj
    match findHit dev blockno (c2.buckets.getD bukId []) with
    | some (tgt2, r) => (Except.ok (r, setBucket c2 bukId tgt2), [mut1, mut2])
    | none =>
      match (some lru : Option Buf) with
      | none => (Except.error BErr.panicNoBuffers, [mut1, mut2])
      | some lb =>
        let lb2 : Buf := installBuf dev blockno lb
        (Except.ok (lb2, setBucket c2 bukId (lb2 :: (cUnlink c li lj).buckets.getD bukId [])),
         [mut1, mut2])

/-- bget(dev, blockno): look in the target bucket under its lock (the
fast path acquires and releases that bucket's lock, so the scan starts
with no lock held); on a miss run the eviction scan and the miss path.
Returns the result together with the membership-change records. -/
def bget (dev blockno : Nat) (c : Cache) :
    Except BErr (Buf × Cache) × List MutRec :=
  let bukId := hash c.nbuk dev blockno
  match findHit dev blockno (c.buckets.getD bukId []) with
  | some (tgt2, r) => (Except.ok (r, setBucket c bukId tgt2), [])
  | none => bgetMiss dev blockno bukId c (scanTop c)

/-- Mutation through a buf pointer: rewrite the buf object with index i
wherever it is linked (in well-formed states exactly one buf has index i). -/
def updBuf (f : Buf → Buf) (i : Nat) (c : Cache) : Cache :=
  { c with buckets := c.buckets.map (fun ch => ch.map (fun b => if b.idx = i then f b else b)) }

/-- bread: bget, then read the block from disk when the buf is not valid.
The Bool records whether virtio_disk_rw was invoked. -/
def bread (dev blockno : Nat) (c : Cache) : Except BErr (Buf × Cache × Bool) :=
  match (bget dev blockno c).1 with
  | Except.error e => Except.error e
  | Except.ok (b, c1) =>
    if b.valid = false then
      Except.ok ({ b with valid := true },
                 updBuf (fun x => { x with valid := true }) b.idx c1, true)
    else Except.ok (b, c1, false)

/-- One virtio_disk_rw write request, identified by the buf written. -/
structure DiskWrite where
  bidx : Nat
  deriving Repr, DecidableEq

/-- bwrite: panic unless the caller holds the sleeplock; otherwise issue
the disk write. -/
def bwrite (b : Buf) : Except Unit DiskWrite :=
  if b.slock = false then Except.error () else Except.ok ⟨b.idx⟩

/-- brelse: panic unless the caller holds the sleeplock; release it, then
under the lock of the bucket hash(dev, blockno) decrement refcnt and, when
it reached zero, stamp the timestamp with the current ticks. Returns the
new cache and the bucket whose lock was taken around the update. -/
def brelse (ticks : Nat) (b : Buf) (c : Cache) : Except Unit (Cache × Nat) :=
  if b.slock = false then Except.error ()
  else
    let bukId := hash c.nbuk b.dev b.blockno
    Except.ok
      (updBuf (fun x =>
        let r := x.refcnt - 1
        { x with slock := false, refcnt := r,
                 timestamp := if r = 0 then ticks else x.timestamp }) b.idx c,
       bukId)

/-- bpin: under the owning bucket's lock, increment refcnt. -/
def bpin (b : Buf) (c : Cache) : Cache × Nat :=
  (updBuf (fun x => { x with refcnt := x.refcnt + 1 }) b.idx c,
   hash c.nbuk b.dev b.blockno)

/-- bunpin: under the owning bucket's lock, decrement refcnt. The source
performs no check and never reads ticks; the ticks argument is carried
only so that statements can speak about the current tick. -/
def bunpin (ticks : Nat) (b : Buf) (c : Cache) : Cache × Nat :=
  (updBuf (fun x => { x with refcnt := x.refcnt - 1 }) b.idx c,
   hash c.nbuk b.dev b.blockno)

/-- binit: all nbuf bufs chained into bucket 0 in array order, timestamps
set to the boot-time ticks, every other field zero. -/
def binit (nbuf nbuk ticks : Nat) : Cache :=
  { nbuk := nbuk,
    buckets :=
      ((List.range nbuf).map (fun k =>
        { idx := k, dev := 0, blockno := 0, valid := false, refcnt := 0,
          timestamp := ticks, slock := false })) ::
      (List.range (nbuk - 1)).map (fun _ => ([] : List Buf)) }

/-- Scan order on positions: the first strictly before the second. -/
def lexLt : Nat × Nat → Nat × Nat → Prop
  | (a, b), (a2, b2) => a < a2 ∨ (a = a2 ∧ b < b2)

/-- The bucket locks the eviction scan keeps held, as a function of the
current candidate. -/
def candB : Option (Nat × Nat) → List Nat
  | none => []
  | some (li, _) => [li]

/-- The invariant of the eviction scan once every position strictly before
the frontier (fi, fj) has been examined: with no candidate, nothing seen
was free and max_timestamp is still 0; with candidate (li, lj), that
position holds a free buf whose timestamp is max_timestamp, every free buf
seen has a timestamp at most max_timestamp, and every free buf seen after
the candidate has a strictly smaller one. -/
def ScanInv (c : Cache) (fi fj : Nat) (m : Nat) : Option (Nat × Nat) → Prop
  | none =>
      m = 0 ∧ ∀ i j b, elemAt c i j = some b → lexLt (i, j) (fi, fj) → ¬ b.refcnt = 0
  | some (li, lj) =>
      (∃ b, elemAt c li lj = some b ∧ b.refcnt = 0 ∧ b.timestamp = m) ∧
      lexLt (li, lj) (fi, fj) ∧
      (∀ i j b, elemAt c i j = some b → lexLt (i, j) (fi, fj) → b.refcnt = 0 →
        b.timestamp ≤ m) ∧
      (∀ i j b, elemAt c i j = some b → lexLt (i, j) (fi, fj) →
        lexLt (li, lj) (i, j) → b.refcnt = 0 → b.timestamp < m)

/-! Concrete inputs used by witnesses and counterexamples. -/

/-- A cache whose two bufs are both pinned (refcnt 1, sleeplocks held):
the scenario of spec test S3 with NBUF = 2, NBUK = 2. -/
def cachePinned : Cache :=
  { nbuk := 2,
    buckets := [[⟨0, 1, 2, true, 1, 10, true⟩], [⟨1, 1, 1, true, 1, 11, true⟩]] }

/-- A two-bucket cache with a single free buf in bucket 0, so that a miss
on a block hashing to bucket 1 evicts across buckets. -/
def cacheMove : Cache :=
  { nbuk := 2, buckets := [[⟨0, 0, 0, false, 0, 0, false⟩], []] }

/-- A two-bucket cache with one free buf (bucket 0) and one pinned buf
(bucket 1). -/
def cacheLRU : Cache :=
  { nbuk := 2,
    buckets := [[⟨0, 1, 2, true, 0, 7, false⟩], [⟨1, 1, 1, true, 1, 3, true⟩]] }

/-- The pinned buf of cacheLRU. -/
def bufPinnedLRU : Buf := ⟨1, 1, 1, true, 1, 3, true⟩

/-- A one-bucket cache holding one buf with refcnt 1 and timestamp 5,
whose sleeplock is held by the caller. -/
def cacheRel : Cache := { nbuk := 1, buckets := [[⟨0, 1, 3, true, 1, 5, true⟩]] }

/-- The buf of cacheRel. -/
def bufRel : Buf := ⟨0, 1, 3, true, 1, 5, true⟩

/-- A one-bucket cache holding one buf with refcnt 1, timestamp 5, whose
sleeplock is not held. -/
def cacheUnpin : Cache := { nbuk := 1, buckets := [[⟨0, 0, 0, false, 1, 5, false⟩]] }

/-- The buf of cacheUnpin. -/
def bufUnpin : Buf := ⟨0, 0, 0, false, 1, 5, false⟩

/-- Two CPUs: CPU 0 exhausted, CPU 1 holding one free frame. -/
def kmSteal : KmemSt := [[], [4096]]

/-- The value part of kallocSpec once the visited freelist is chosen. -/
def specPick (km : KmemSt) : Option Nat → Option (Nat × KmemSt)
  | none => none
  | some i =>
    match km.getD i [] with
    | [] => none
    | h :: t => some (h, km.set i t)

/-! Lemmas about the allocator. -/

theorem kallocSpec_eq_pick (ncpu cpu : Nat) (km : KmemSt) :
    kallocSpec ncpu cpu km
      = specPick km ((visitOrder ncpu cpu).find? (fun i => !(km.getD i []).isEmpty)) := rfl

theorem stealFrom_cons (ncpu cpu : Nat) (km : KmemSt) (i : Nat) (rest : List Nat) :
    stealFrom ncpu cpu km (i :: rest)
      = if i = cpu then stealFrom ncpu cpu km rest
        else if i = ncpu - 1 ∧ km.getD i [] = [] then none
        else
          match km.getD i [] with
          | [] => stealFrom ncpu cpu km rest
          | h :: t => some (h, km.set i t) := rfl

theorem stealFrom_eq_spec (ncpu cpu : Nat) (km : KmemSt) :
    ∀ l : List Nat, l.Pairwise (· < ·) → (∀ x ∈ l, x < ncpu) →
    stealFrom ncpu cpu km l
      = specPick km
          ((l.filter (fun i => i != cpu)).find? (fun i => !(km.getD i []).isEmpty)) := by
  intro l
  induction l with
  | nil => intro _ _; rfl
  | cons i rest ih =>
    intro hp hm
    rw [List.pairwise_cons] at hp
    have hm2 : ∀ x ∈ rest, x < ncpu := fun x hx => hm x (List.mem_cons_of_mem _ hx)
    rw [stealFrom_cons]
    by_cases hc : i = cpu
    · rw [if_pos hc]
      have hfilter : (i :: rest).filter (fun a => a != cpu)
          = rest.filter (fun a => a != cpu) := by simp [List.filter_cons, hc]
      rw [hfilter]
      exact ih hp.2 hm2
    · rw [if_neg hc]
      have hfilter : (i :: rest).filter (fun a => a != cpu)
          = i :: rest.filter (fun a => a != cpu) := by simp [List.filter_cons, hc]
      rw [hfilter]
      cases hgd : km.getD i [] with
      | cons h t =>
        have hgd2 : km[i]?.getD [] = h :: t := by
          rw [← List.getD_eq_getElem?_getD]; exact hgd
        rw [List.find?_cons_of_pos _ (by simp [hgd, hgd2])]
        rw [if_neg (by simp [hgd, hgd2])]
        simp [specPick, hgd, hgd2]
      | nil =>
        have hgd2 : km[i]?.getD [] = [] := by
          rw [← List.getD_eq_getElem?_getD]; exact hgd
        rw [List.find?_cons_of_neg _ (by simp [hgd, hgd2])]
        by_cases hlast : i = ncpu - 1
        · have hrest : rest = [] := by
            cases rest with
            | nil => rfl
            | cons y ys =>
              exfalso
              have h1 : i < y := hp.1 y (List.mem_cons_self y ys)
              have h2 : y < ncpu := hm2 y (List.mem_cons_self y ys)
              omega
          subst hrest
          rw [if_pos ⟨hlast, rfl⟩]
          rfl
        · rw [if_neg (by simp [hlast])]
          exact ih hp.2 hm2

theorem kalloc_eq_kallocSpec (ncpu cpu : Nat) (km : KmemSt) :
    kalloc ncpu cpu km = kallocSpec ncpu cpu km := by
  rw [kallocSpec_eq_pick]
  unfold kalloc visitOrder
  cases hgd : km.getD cpu [] with
  | cons h t =>
    have hgd2 : km[cpu]?.getD [] = h :: t := by
      rw [← List.getD_eq_getElem?_getD]; exact hgd
    rw [List.find?_cons_of_pos _ (by simp [hgd, hgd2])]
    simp [specPick, hgd, hgd2]
  | nil =>
    have hgd2 : km[cpu]?.getD [] = [] := by
      rw [← List.getD_eq_getElem?_getD]; exact hgd
    rw [List.find?_cons_of_neg _ (by simp [hgd, hgd2])]
    exact stealFrom_eq_spec ncpu cpu km (List.range ncpu) (List.pairwise_lt_range ncpu)
      (fun x hx => List.mem_range.mp hx)

theorem getD_of_getElem? {km : KmemSt} {i : Nat} {l : List Nat}
    (h : km[i]? = some l) : km.getD i [] = l := by
  rw [List.getD_eq_getElem?_getD, h]
  rfl

/-- C5. kalloc refines the spec-side first-nonempty-in-visit-order
description, and returns null exactly when every freelist is empty. -/
theorem kalloc_null_iff_exhausted (ncpu cpu : Nat) (km : KmemSt)
    (hc : cpu < ncpu) (hl : km.length = ncpu) :
    kalloc ncpu cpu km = kallocSpec ncpu cpu km ∧
    (kalloc ncpu cpu km = none ↔ ∀ l ∈ km, l = []) := by
  refine ⟨kalloc_eq_kallocSpec ncpu cpu km, ?_, ?_⟩
  · intro hnone l hmem
    by_contra hne
    rw [kalloc_eq_kallocSpec, kallocSpec_eq_pick] at hnone
    obtain ⟨n, hn⟩ := List.mem_iff_getElem?.mp hmem
    have hnlt : n < ncpu := by
      obtain ⟨hlt, -⟩ := List.getElem?_eq_some.mp hn
      omega
    have hvis : n ∈ visitOrder ncpu cpu := by
      by_cases hnc : n = cpu
      · subst hnc; exact List.mem_cons_self _ _
      · exact List.mem_cons_of_mem _
          (List.mem_filter.mpr ⟨List.mem_range.mpr hnlt, by simp [hnc]⟩)
    have hpn : (!(km.getD n []).isEmpty) = true := by
      rw [getD_of_getElem? hn]
      cases l with
      | nil => exact absurd rfl hne
      | cons a as => simp
    cases hfind : (visitOrder ncpu cpu).find? (fun i => !(km.getD i []).isEmpty) with
    | none =>
      exact absurd hpn (List.find?_eq_none.mp hfind n hvis)
    | some i2 =>
      rw [hfind] at hnone
      have hpi2 : (!(km.getD i2 []).isEmpty) = true :=
        @List.find?_some Nat (fun i => !(km.getD i []).isEmpty) i2 (visitOrder ncpu cpu) hfind
      cases hgd : km.getD i2 [] with
      | nil => rw [hgd] at hpi2; simp at hpi2
      | cons a as =>
        have hgd2 : km[i2]?.getD [] = a :: as := by
          rw [← List.getD_eq_getElem?_getD]; exact hgd
        simp [specPick, hgd, hgd2] at hnone
  · intro hall
    rw [kalloc_eq_kallocSpec, kallocSpec_eq_pick]
    have hfind : (visitOrder ncpu cpu).find? (fun i => !(km.getD i []).isEmpty) = none := by
      rw [List.find?_eq_none]
      intro i _
      cases hgd : km[i]? with
      | none =>
        rw [List.getD_eq_getElem?_getD, hgd]
        simp
      | some l =>
        have : l = [] := hall l (List.mem_iff_getElem?.mpr ⟨i, hgd⟩)
        rw [getD_of_getElem? hgd, this]
        simp
    rw [hfind]
    rfl

/-- C5 witness: at the concrete state kmSteal with two CPUs, applied for
the caller CPU 0. -/
theorem kalloc_null_iff_exhausted_witness :
    kalloc 2 0 kmSteal = kallocSpec 2 0 kmSteal ∧
    (kalloc 2 0 kmSteal = none ↔ ∀ l ∈ kmSteal, l = []) :=
  kalloc_null_iff_exhausted 2 0 kmSteal (by decide) rfl

/-- C6. kfree panics exactly when the frame pointer is misaligned, below
the kernel end, or at or above PHYSTOP, and otherwise links the frame at
the head of the calling CPU's freelist, leaving every other freelist
unchanged. -/
theorem kfree_checks (endA physTop pa cpu : Nat) (km : KmemSt)
    (hcpu : cpu < km.length) :
    (kfree endA physTop pa cpu km = Except.error ()
       ↔ (¬ pa % PGSIZE = 0 ∨ pa < endA ∨ physTop ≤ pa)) ∧
    (pa % PGSIZE = 0 → endA ≤ pa → pa < physTop →
      ∃ km2, kfree endA physTop pa cpu km = Except.ok km2 ∧
        km2[cpu]? = some (pa :: km.getD cpu []) ∧
        ∀ i, ¬ i = cpu → km2[i]? = km[i]?) := by
  constructor
  · unfold kfree
    by_cases hbad : ¬ pa % PGSIZE = 0 ∨ pa < endA ∨ physTop ≤ pa
    · rw [if_pos hbad]
      simp [hbad]
    · rw [if_neg hbad]
      simp [hbad]
  · intro h1 h2 h3
    refine ⟨km.set cpu (pa :: km.getD cpu []), ?_, ?_, ?_⟩
    · unfold kfree
      rw [if_neg (by omega)]
    · exact List.getElem?_set_self hcpu
    · intro i hi
      exact List.getElem?_set_ne (fun h => hi h.symm)

/-- C6 witness: freeing the aligned in-range frame 12288 on CPU 0 of a
two-CPU system with empty freelists. -/
theorem kfree_checks_witness :
    ∃ km2, kfree 8192 40960 12288 0 [[], []] = Except.ok km2 ∧
      km2[0]? = some (12288 :: ([[], []] : KmemSt).getD 0 []) ∧
      ∀ i, ¬ i = 0 → km2[i]? = ([[], []] : KmemSt)[i]? :=
  (kfree_checks 8192 40960 12288 0 [[], []] (by decide)).2 (by decide) (by decide) (by decide)

/-! Lemmas about the buffer cache. -/

theorem elemAt_updBuf (f : Buf → Buf) (i : Nat) (c : Cache) (k j : Nat) :
    elemAt (updBuf f i c) k j
      = (elemAt c k j).map (fun b => if b.idx = i then f b else b) := by
  unfold elemAt updBuf
  rw [List.getD_eq_getElem?_getD, List.getD_eq_getElem?_getD, List.getElem?_map]
  cases c.buckets[k]? with
  | none => simp
  | some ch => simp [List.getElem?_map]

/-- C7. bwrite and brelse panic exactly when the caller does not hold the
buffer's sleeplock. -/
theorem bwrite_brelse_need_sleeplock (t : Nat) (b : Buf) (c : Cache) :
    (bwrite b = Except.error () ↔ b.slock = false) ∧
    (brelse t b c = Except.error () ↔ b.slock = false) := by
  constructor
  · unfold bwrite
    by_cases hs : b.slock = false
    · rw [if_pos hs]; simp [hs]
    · rw [if_neg hs]; simp [hs]
  · unfold brelse
    by_cases hs : b.slock = false
    · rw [if_pos hs]; simp [hs]
    · rw [if_neg hs]; simp [hs]

/-- C8. With the sleeplock held, brelse succeeds, takes the lock of the
bucket hash(dev, blockno), and its whole effect is on the bufs with the
released buf's index: sleeplock released, refcnt decremented by one,
timestamp stamped with the current ticks exactly when the new refcnt is
zero, every other field and every other buf untouched. -/
theorem brelse_effect (t : Nat) (b : Buf) (c : Cache) (hsl : b.slock = true) :
    ∃ c2, brelse t b c = Except.ok (c2, hash c.nbuk b.dev b.blockno) ∧
      (∀ k j x, elemAt c k j = some x → x.idx = b.idx →
        ∃ y, elemAt c2 k j = some y ∧ y.slock = false ∧ y.refcnt = x.refcnt - 1 ∧
          y.timestamp = (if x.refcnt - 1 = 0 then t else x.timestamp) ∧
          y.dev = x.dev ∧ y.blockno = x.blockno ∧ y.valid = x.valid ∧ y.idx = x.idx) ∧
      (∀ k j x, elemAt c k j = some x → ¬ x.idx = b.idx → elemAt c2 k j = some x) := by
  have hs : ¬ b.slock = false := by rw [hsl]; simp
  refine ⟨_, by unfold brelse; rw [if_neg hs], ?_, ?_⟩
  · intro k j x hx hidx
    rw [elemAt_updBuf, hx]
    refine ⟨_, rfl, ?_⟩
    simp [hidx]
  · intro k j x hx hidx
    rw [elemAt_updBuf, hx]
    simp [hidx]

/-- C8 witness: releasing the held buf of cacheRel at tick 42. -/
theorem brelse_effect_witness :
    ∃ c2, brelse 42 bufRel cacheRel
        = Except.ok (c2, hash cacheRel.nbuk bufRel.dev bufRel.blockno) ∧
      (∀ k j x, elemAt cacheRel k j = some x → x.idx = bufRel.idx →
        ∃ y, elemAt c2 k j = some y ∧ y.slock = false ∧ y.refcnt = x.refcnt - 1 ∧
          y.timestamp = (if x.refcnt - 1 = 0 then 42 else x.timestamp) ∧
          y.dev = x.dev ∧ y.blockno = x.blockno ∧ y.valid = x.valid ∧ y.idx = x.idx) ∧
      (∀ k j x, elemAt cacheRel k j = some x → ¬ x.idx = bufRel.idx →
        elemAt c2 k j = some x) :=
  brelse_effect 42 bufRel cacheRel rfl

/-- C9. bunpin never panics: it is total, takes the owning bucket's lock,
and decrements the refcnt of the addressed buf by exactly one, leaving its
timestamp and every other field unchanged; in particular from refcnt 0 it
produces refcnt -1. -/
theorem bunpin_effect (t : Nat) (b : Buf) (c : Cache) :
    (bunpin t b c).2 = hash c.nbuk b.dev b.blockno ∧
    ∀ k j x, elemAt c k j = some x →
      (x.idx = b.idx →
        ∃ y, elemAt (bunpin t b c).1 k j = some y ∧ y.refcnt = x.refcnt - 1 ∧
          y.timestamp = x.timestamp ∧ y.dev = x.dev ∧ y.blockno = x.blockno ∧
          y.valid = x.valid ∧ y.slock = x.slock ∧ y.idx = x.idx ∧
          (x.refcnt = 0 → y.refcnt = -1)) ∧
      (¬ x.idx = b.idx → elemAt (bunpin t b c).1 k j = some x) := by
  refine ⟨rfl, ?_⟩
  intro k j x hx
  constructor
  · intro hidx
    unfold bunpin
    rw [elemAt_updBuf, hx]
    refine ⟨_, rfl, ?_⟩
    simp [hidx]
  · intro hidx
    unfold bunpin
    rw [elemAt_updBuf, hx]
    simp [hidx]

/-- C4 counterexample. In cacheUnpin the single buf has refcnt 1 and
timestamp 5; with the current tick equal to 99, bunpin takes its refcnt
to 0 yet leaves the timestamp at 5 instead of stamping it with 99, so not
every refcnt 1-to-0 transition updates ts to the current tick. -/
theorem bunpin_skips_stamp_cex :
    elemAt (bunpin 99 bufUnpin cacheUnpin).1 0 0
      = some ⟨0, 0, 0, false, 0, 5, false⟩ ∧
    ¬ (5 : Nat) = 99 := by
  constructor
  · rfl
  · decide

/-- C4 amended: the refcnt 1-to-0 transition stamps the timestamp with the
current tick in brelse, but not in bunpin, which decrements the refcnt and
never touches the timestamp. -/
theorem stamp_on_release_only (t : Nat) (b : Buf) (c : Cache) :
    (∀ c2 lk k j x, brelse t b c = Except.ok (c2, lk) → elemAt c k j = some x →
      x.idx = b.idx → x.refcnt = 1 →
      ∃ y, elemAt c2 k j = some y ∧ y.refcnt = 0 ∧ y.timestamp = t) ∧
    (∀ k j x, elemAt c k j = some x → x.idx = b.idx →
      ∃ y, elemAt (bunpin t b c).1 k j = some y ∧ y.refcnt = x.refcnt - 1 ∧
        y.timestamp = x.timestamp) := by
  constructor
  · intro c2 lk k j x hok hx hidx hrc
    by_cases hs : b.slock = false
    · unfold brelse at hok
      rw [if_pos hs] at hok
      exact absurd hok (by simp)
    · unfold brelse at hok
      rw [if_neg hs] at hok
      have hc2 : c2 = updBuf (fun x =>
          let r := x.refcnt - 1
          { x with slock := false, refcnt := r,
                   timestamp := if r = 0 then t else x.timestamp }) b.idx c := by
        have := congrArg (fun p => p) hok
        cases hok
        rfl
      subst hc2
      rw [elemAt_updBuf, hx]
      refine ⟨_, rfl, ?_⟩
      simp [hidx, hrc]
  · intro k j x hx hidx
    unfold bunpin
    rw [elemAt_updBuf, hx]
    refine ⟨_, rfl, ?_⟩
    simp [hidx]

/-! Lemmas about the eviction scan. -/

theorem walkChain_cons (i j m : Nat) (cand : Option (Nat × Nat)) (better : Bool)
    (b : Buf) (bs : List Buf) :
    walkChain i j m cand better (b :: bs)
      = if b.refcnt = 0 ∧ m ≤ b.timestamp then
          walkChain i (j + 1) b.timestamp (some (i, j)) true bs
        else
          walkChain i (j + 1) m cand better bs := rfl

theorem scanBuckets_cons_proj (i m : Nat) (cand : Option (Nat × Nat)) (ls : LockSt)
    (chain : List Buf) (rest : List (List Buf)) :
    scanBuckets i m cand ls (chain :: rest)
      = scanBuckets (i + 1) (walkChain i 0 m cand false chain).1
          (walkChain i 0 m cand false chain).2.1
          (scanLockStep i cand ls (walkChain i 0 m cand false chain).2.2)
          rest := rfl

theorem scanBuckets_cons (i m : Nat) (cand : Option (Nat × Nat)) (ls : LockSt)
    (chain : List Buf) (rest : List (List Buf)) (m2 : Nat)
    (cand2 : Option (Nat × Nat)) (better : Bool)
    (hw : walkChain i 0 m cand false chain = (m2, cand2, better)) :
    scanBuckets i m cand ls (chain :: rest)
      = scanBuckets (i + 1) m2 cand2 (scanLockStep i cand ls better) rest := by
  rw [scanBuckets_cons_proj, hw]

theorem elemAt_lt_length (c : Cache) (i j : Nat) (b : Buf)
    (h : elemAt c i j = some b) : j < (c.buckets.getD i []).length := by
  unfold elemAt at h
  obtain ⟨hlt, -⟩ := List.getElem?_eq_some.mp h
  exact hlt

theorem elemAt_bucket_lt (c : Cache) (i j : Nat) (b : Buf)
    (h : elemAt c i j = some b) : i < c.buckets.length := by
  by_contra hge
  push_neg at hge
  unfold elemAt at h
  rw [List.getD_eq_getElem?_getD, List.getElem?_eq_none hge] at h
  simp at h

theorem ScanInv_step_update (c : Cache) (i j m : Nat) (cand : Option (Nat × Nat))
    (b : Buf) (hb : elemAt c i j = some b) (hrc : b.refcnt = 0)
    (hts : m ≤ b.timestamp) (hinv : ScanInv c i j m cand) :
    ScanInv c i (j + 1) b.timestamp (some (i, j)) := by
  have hbound : ∀ i2 j2 b2, elemAt c i2 j2 = some b2 → lexLt (i2, j2) (i, j) →
      b2.refcnt = 0 → b2.timestamp ≤ m := by
    cases cand with
    | none =>
      intro i2 j2 b2 hb2 hlt hrc2
      exact absurd hrc2 (hinv.2 i2 j2 b2 hb2 hlt)
    | some p =>
      obtain ⟨li, lj⟩ := p
      intro i2 j2 b2 hb2 hlt hrc2
      exact hinv.2.2.1 i2 j2 b2 hb2 hlt hrc2
  refine ⟨⟨b, hb, hrc, rfl⟩, ?_, ?_, ?_⟩
  · simp [lexLt]
  · intro i2 j2 b2 hb2 hlt hrc2
    have hcase : lexLt (i2, j2) (i, j) ∨ (i2 = i ∧ j2 = j) := by
      simp only [lexLt] at hlt ⊢
      omega
    cases hcase with
    | inl h => exact le_trans (hbound i2 j2 b2 hb2 h hrc2) hts
    | inr h =>
      obtain ⟨h1, h2⟩ := h
      subst h1
      subst h2
      rw [hb] at hb2
      injection hb2 with hh
      rw [← hh]
  · intro i2 j2 b2 hb2 hlt hlt2 hrc2
    exfalso
    simp only [lexLt] at hlt hlt2
    omega

theorem ScanInv_step_keep (c : Cache) (i j m : Nat) (cand : Option (Nat × Nat))
    (b : Buf) (hb : elemAt c i j = some b)
    (hcond : ¬ (b.refcnt = 0 ∧ m ≤ b.timestamp)) (hinv : ScanInv c i j m cand) :
    ScanInv c i (j + 1) m cand := by
  cases cand with
  | none =>
    obtain ⟨hm0, hall⟩ := hinv
    refine ⟨hm0, ?_⟩
    intro i2 j2 b2 hb2 hlt hrc2
    have hcase : lexLt (i2, j2) (i, j) ∨ (i2 = i ∧ j2 = j) := by
      simp only [lexLt] at hlt ⊢
      omega
    cases hcase with
    | inl h => exact hall i2 j2 b2 hb2 h hrc2
    | inr h =>
      obtain ⟨h1, h2⟩ := h
      subst h1
      subst h2
      rw [hb] at hb2
      injection hb2 with hh
      subst hh
      exact hcond ⟨hrc2, by rw [hm0]; exact Nat.zero_le _⟩
  | some p =>
    obtain ⟨li, lj⟩ := p
    obtain ⟨hwit, hfr, hub, hstr⟩ := hinv
    have hnotle : ∀ b2 : Buf, b = b2 → b2.refcnt = 0 → b2.timestamp < m := by
      intro b2 hbb hrc2
      subst hbb
      have : ¬ m ≤ b.timestamp := fun hle => hcond ⟨hrc2, hle⟩
      omega
    refine ⟨hwit, ?_, ?_, ?_⟩
    · simp only [lexLt] at hfr ⊢
      omega
    · intro i2 j2 b2 hb2 hlt hrc2
      have hcase : lexLt (i2, j2) (i, j) ∨ (i2 = i ∧ j2 = j) := by
        simp only [lexLt] at hlt ⊢
        omega
      cases hcase with
      | inl h => exact hub i2 j2 b2 hb2 h hrc2
      | inr h =>
        obtain ⟨h1, h2⟩ := h
        subst h1
        subst h2
        rw [hb] at hb2
        injection hb2 with hh
        exact le_of_lt (hnotle b2 hh hrc2)
    · intro i2 j2 b2 hb2 hlt hlt2 hrc2
      have hcase : lexLt (i2, j2) (i, j) ∨ (i2 = i ∧ j2 = j) := by
        simp only [lexLt] at hlt ⊢
        omega
      cases hcase with
      | inl h => exact hstr i2 j2 b2 hb2 h hlt2 hrc2
      | inr h =>
        obtain ⟨h1, h2⟩ := h
        subst h1
        subst h2
        rw [hb] at hb2
        injection hb2 with hh
        exact hnotle b2 hh hrc2

theorem walkChain_inv (c : Cache) (i : Nat) :
    ∀ (bs : List Buf) (j m : Nat) (cand : Option (Nat × Nat)) (better : Bool),
      bs = (c.buckets.getD i []).drop j →
      ScanInv c i j m cand →
      ScanInv c i (j + bs.length) (walkChain i j m cand better bs).1
        (walkChain i j m cand better bs).2.1 := by
  intro bs
  induction bs with
  | nil =>
    intro j m cand better hbs hinv
    simpa [walkChain] using hinv
  | cons b bs2 ih =>
    intro j m cand better hbs hinv
    have hbj : elemAt c i j = some b := by
      unfold elemAt
      have h0 : ((c.buckets.getD i []).drop j)[0]? = some b := by
        rw [← hbs]
        simp
      rw [List.getElem?_drop] at h0
      simpa using h0
    have hbs2 : bs2 = (c.buckets.getD i []).drop (j + 1) := by
      have h1 : List.drop 1 ((c.buckets.getD i []).drop j) = bs2 := by
        rw [← hbs]
        rfl
      rw [List.drop_drop] at h1
      exact h1.symm
    rw [walkChain_cons]
    have harith : j + (b :: bs2).length = j + 1 + bs2.length := by
      rw [List.length_cons]
      omega
    by_cases hcond : b.refcnt = 0 ∧ m ≤ b.timestamp
    · rw [if_pos hcond, harith]
      exact ih (j + 1) b.timestamp (some (i, j)) true hbs2
        (ScanInv_step_update c i j m cand b hbj hcond.1 hcond.2 hinv)
    · rw [if_neg hcond, harith]
      exact ih (j + 1) m cand better hbs2
        (ScanInv_step_keep c i j m cand b hbj hcond hinv)

theorem ScanInv_next_bucket (c : Cache) (i m : Nat) (cand : Option (Nat × Nat))
    (hinv : ScanInv c i ((c.buckets.getD i []).length) m cand) :
    ScanInv c (i + 1) 0 m cand := by
  cases cand with
  | none =>
    obtain ⟨hm0, hall⟩ := hinv
    refine ⟨hm0, ?_⟩
    intro i2 j2 b2 hb2 hlt hrc2
    refine hall i2 j2 b2 hb2 ?_ hrc2
    have hj2 : j2 < (c.buckets.getD i2 []).length := elemAt_lt_length c i2 j2 b2 hb2
    by_cases hii : i2 = i
    · subst hii
      exact Or.inr ⟨rfl, hj2⟩
    · simp only [lexLt] at hlt ⊢
      omega
  | some p =>
    obtain ⟨li, lj⟩ := p
    obtain ⟨hwit, hfr, hub, hstr⟩ := hinv
    refine ⟨hwit, ?_, ?_, ?_⟩
    · simp only [lexLt] at hfr ⊢
      omega
    · intro i2 j2 b2 hb2 hlt hrc2
      refine hub i2 j2 b2 hb2 ?_ hrc2
      have hj2 : j2 < (c.buckets.getD i2 []).length := elemAt_lt_length c i2 j2 b2 hb2
      by_cases hii : i2 = i
      · subst hii
        exact Or.inr ⟨rfl, hj2⟩
      · simp only [lexLt] at hlt ⊢
        omega
    · intro i2 j2 b2 hb2 hlt hlt2 hrc2
      refine hstr i2 j2 b2 hb2 ?_ hlt2 hrc2
      have hj2 : j2 < (c.buckets.getD i2 []).length := elemAt_lt_length c i2 j2 b2 hb2
      by_cases hii : i2 = i
      · subst hii
        exact Or.inr ⟨rfl, hj2⟩
      · simp only [lexLt] at hlt ⊢
        omega

theorem scanBuckets_inv (c : Cache) :
    ∀ (bs : List (List Buf)) (i m : Nat) (cand : Option (Nat × Nat)) (ls : LockSt),
      bs = c.buckets.drop i →
      ScanInv c i 0 m cand →
      ∃ m2, ScanInv c (i + bs.length) 0 m2 (scanBuckets i m cand ls bs).1 := by
  intro bs
  induction bs with
  | nil =>
    intro i m cand ls hbs hinv
    exact ⟨m, by simpa [scanBuckets] using hinv⟩
  | cons chain rest ih =>
    intro i m cand ls hbs hinv
    have hbi : c.buckets[i]? = some chain := by
      have h0 : (c.buckets.drop i)[0]? = some chain := by
        rw [← hbs]
        simp
      rw [List.getElem?_drop] at h0
      simpa using h0
    have hchain : c.buckets.getD i [] = chain := by
      rw [List.getD_eq_getElem?_getD, hbi]
      rfl
    have hrest : rest = c.buckets.drop (i + 1) := by
      have h1 : List.drop 1 (c.buckets.drop i) = rest := by
        rw [← hbs]
        rfl
      rw [List.drop_drop] at h1
      exact h1.symm
    rcases hww : walkChain i 0 m cand false chain with ⟨m2, cand2, better⟩
    rw [scanBuckets_cons i m cand ls chain rest m2 cand2 better hww]
    have hinv2 := walkChain_inv c i chain 0 m cand false
      (by rw [hchain, List.drop_zero]) hinv
    rw [hww] at hinv2
    have hinv3 : ScanInv c i ((c.buckets.getD i []).length) m2 cand2 := by
      rw [hchain]
      simpa using hinv2
    have hinv4 := ScanInv_next_bucket c i m2 cand2 hinv3
    obtain ⟨m3, hfin⟩ := ih (i + 1) m2 cand2 (scanLockStep i cand ls better) hrest hinv4
    refine ⟨m3, ?_⟩
    have harith : i + (chain :: rest).length = i + 1 + rest.length := by
      rw [List.length_cons]
      omega
    rw [harith]
    exact hfin

theorem scanTop_inv (c : Cache) :
    ∃ m2, ScanInv c c.buckets.length 0 m2 (scanTop c).1 := by
  have h0 : ScanInv c 0 0 0 none := by
    refine ⟨rfl, ?_⟩
    intro i j b hb hlt hrc
    simp only [lexLt] at hlt
    omega
  have := scanBuckets_inv c c.buckets 0 0 none ⟨false, []⟩ (List.drop_zero _).symm h0
  simpa [scanTop] using this

theorem scanTop_none_no_free (c : Cache) (h : (scanTop c).1 = none) :
    ∀ i j b, elemAt c i j = some b → ¬ b.refcnt = 0 := by
  obtain ⟨m2, hinv⟩ := scanTop_inv c
  rw [h] at hinv
  intro i j b hb hrc
  have hi : i < c.buckets.length := elemAt_bucket_lt c i j b hb
  exact hinv.2 i j b hb (by simp only [lexLt]; omega) hrc

theorem scanTop_some_lru (c : Cache) (li lj : Nat)
    (h : (scanTop c).1 = some (li, lj)) :
    ∃ b, elemAt c li lj = some b ∧ b.refcnt = 0 ∧
      (∀ i j b2, elemAt c i j = some b2 → b2.refcnt = 0 →
        b2.timestamp ≤ b.timestamp) ∧
      (∀ i j b2, elemAt c i j = some b2 → b2.refcnt = 0 →
        lexLt (li, lj) (i, j) → b2.timestamp < b.timestamp) := by
  obtain ⟨m2, hinv⟩ := scanTop_inv c
  rw [h] at hinv
  obtain ⟨⟨b, hb, hrc, hts⟩, hfr, hub, hstr⟩ := hinv
  refine ⟨b, hb, hrc, ?_, ?_⟩
  · intro i j b2 hb2 hrc2
    have hi : i < c.buckets.length := elemAt_bucket_lt c i j b2 hb2
    have := hub i j b2 hb2 (by simp only [lexLt]; omega) hrc2
    omega
  · intro i j b2 hb2 hrc2 hlt2
    have hi : i < c.buckets.length := elemAt_bucket_lt c i j b2 hb2
    have := hstr i j b2 hb2 (by simp only [lexLt]; omega) hlt2 hrc2
    omega

theorem walkChain_better_gen (i : Nat) :
    ∀ (bs : List Buf) (j m : Nat) (cand : Option (Nat × Nat)) (better : Bool),
      ((walkChain i j m cand better bs).2.2 = better ∧
        (walkChain i j m cand better bs).2.1 = cand) ∨
      ((walkChain i j m cand better bs).2.2 = true ∧
        ∃ jj, (walkChain i j m cand better bs).2.1 = some (i, jj)) := by
  intro bs
  induction bs with
  | nil =>
    intro j m cand better
    left
    exact ⟨rfl, rfl⟩
  | cons b bs2 ih =>
    intro j m cand better
    rw [walkChain_cons]
    by_cases hcond : b.refcnt = 0 ∧ m ≤ b.timestamp
    · rw [if_pos hcond]
      rcases ih (j + 1) b.timestamp (some (i, j)) true with ⟨h1, h2⟩ | ⟨h1, jj, h2⟩
      · right
        exact ⟨h1, j, h2⟩
      · right
        exact ⟨h1, jj, h2⟩
    · rw [if_neg hcond]
      exact ih (j + 1) m cand better

theorem scanBuckets_locks :
    ∀ (bs : List (List Buf)) (i m : Nat) (cand : Option (Nat × Nat)),
      (∀ li lj, cand = some (li, lj) → li < i) →
      (scanBuckets i m cand ⟨false, candB cand⟩ bs).2
          = ⟨false, candB (scanBuckets i m cand ⟨false, candB cand⟩ bs).1⟩ ∧
      (∀ li lj, (scanBuckets i m cand ⟨false, candB cand⟩ bs).1 = some (li, lj) →
        li < i + bs.length) := by
  intro bs
  induction bs with
  | nil =>
    intro i m cand hcand
    refine ⟨rfl, ?_⟩
    intro li lj h
    have := hcand li lj h
    simpa using this
  | cons chain rest ih =>
    intro i m cand hcand
    rcases hww : walkChain i 0 m cand false chain with ⟨m2, cand2, better⟩
    rw [scanBuckets_cons i m cand ⟨false, candB cand⟩ chain rest m2 cand2 better hww]
    have hbet := walkChain_better_gen i chain 0 m cand false
    rw [hww] at hbet
    cases better with
    | false =>
      have hc2 : cand2 = cand := by
        rcases hbet with ⟨-, h2⟩ | ⟨h1, -⟩
        · exact h2
        · exact absurd h1 (by simp)
      subst hc2
      have hls : scanLockStep i cand2 ⟨false, candB cand2⟩ false = ⟨false, candB cand2⟩ := by
        unfold scanLockStep relB acqB
        simp [List.erase_cons_head]
      rw [hls]
      have hcand2 : ∀ li lj, cand2 = some (li, lj) → li < i + 1 := by
        intro li lj h
        have := hcand li lj h
        omega
      obtain ⟨ihA, ihB⟩ := ih (i + 1) m2 cand2 hcand2
      refine ⟨ihA, ?_⟩
      intro li lj h
      have := ihB li lj h
      rw [List.length_cons]
      omega
    | true =>
      have hc2 : ∃ jj, cand2 = some (i, jj) := by
        rcases hbet with ⟨h1, -⟩ | ⟨-, jj, h2⟩
        · exact absurd h1 (by simp)
        · exact ⟨jj, h2⟩
      obtain ⟨jj, hc2⟩ := hc2
      have hls : scanLockStep i cand ⟨false, candB cand⟩ true = ⟨false, candB cand2⟩ := by
        cases cand with
        | none =>
          unfold scanLockStep acqB candB
          rw [hc2]
          simp [candB]
        | some p =>
          obtain ⟨li0, lj0⟩ := p
          have hli0 : li0 < i := hcand li0 lj0 rfl
          unfold scanLockStep relB acqB
          rw [hc2]
          simp only [candB]
          have herase : (i :: [li0]).erase li0 = [i] := by
            rw [List.erase_cons_tail (by simp; omega)]
            rw [List.erase_cons_head]
          simp [herase]
      rw [hls]
      have hcand2 : ∀ li lj, cand2 = some (li, lj) → li < i + 1 := by
        intro li lj h
        rw [hc2] at h
        injection h with hh
        injection hh with hh1 hh2
        omega
      obtain ⟨ihA, ihB⟩ := ih (i + 1) m2 cand2 hcand2
      refine ⟨ihA, ?_⟩
      intro li lj h
      have := ihB li lj h
      rw [List.length_cons]
      omega

theorem scanTop_locks (c : Cache) :
    (scanTop c).2 = ⟨false, candB (scanTop c).1⟩ ∧
    (∀ li lj, (scanTop c).1 = some (li, lj) → li < c.buckets.length) := by
  have h := scanBuckets_locks c.buckets 0 0 none (fun li lj h => nomatch h)
  simpa [scanTop, candB] using h

/-! Lemmas about bucket surgery. -/

theorem elemAt_setBucket_ne (c : Cache) (q : Nat) (ch : List Buf) (k j : Nat)
    (hkq : ¬ k = q) :
    elemAt (setBucket c q ch) k j = elemAt c k j := by
  unfold elemAt setBucket
  rw [List.getD_eq_getElem?_getD, List.getD_eq_getElem?_getD,
      List.getElem?_set_ne (fun h => hkq h.symm)]

theorem elemAt_setBucket_self (c : Cache) (q : Nat) (ch : List Buf) (j : Nat)
    (hq : q < c.buckets.length) :
    elemAt (setBucket c q ch) q j = ch[j]? := by
  unfold elemAt setBucket
  rw [List.getD_eq_getElem?_getD, List.getElem?_set_self hq]
  rfl

theorem cUnlink_len (c : Cache) (li lj : Nat) :
    (cUnlink c li lj).buckets.length = c.buckets.length := by
  unfold cUnlink setBucket
  exact List.length_set c.buckets li _

theorem cSplice_len (c : Cache) (bid li lj : Nat) :
    (cSplice c bid li lj).buckets.length = c.buckets.length := by
  unfold cSplice setBucket
  rw [List.length_set]
  exact cUnlink_len c li lj

theorem lruAt_eq (c : Cache) (li lj : Nat) (b : Buf)
    (h : elemAt c li lj = some b) : lruAt c li lj = b := by
  unfold elemAt at h
  unfold lruAt
  rw [List.getD_eq_getElem?_getD, h]
  rfl

theorem mem_getD_mem_buckets (c : Cache) (i : Nat) (b : Buf)
    (hb : b ∈ c.buckets.getD i []) : ∃ ch ∈ c.buckets, b ∈ ch := by
  cases hgd : c.buckets[i]? with
  | none =>
    rw [List.getD_eq_getElem?_getD, hgd] at hb
    simp at hb
  | some ch =>
    rw [List.getD_eq_getElem?_getD, hgd] at hb
    exact ⟨ch, List.mem_iff_getElem?.mpr ⟨i, hgd⟩, hb⟩

theorem elemAt_mem (c : Cache) (i j : Nat) (b : Buf) (h : elemAt c i j = some b) :
    ∃ ch ∈ c.buckets, b ∈ ch := by
  apply mem_getD_mem_buckets c i b
  unfold elemAt at h
  exact List.mem_iff_getElem?.mpr ⟨j, h⟩

theorem mem_elemAt (c : Cache) (ch : List Buf) (b : Buf) (hch : ch ∈ c.buckets)
    (hb : b ∈ ch) : ∃ i j, elemAt c i j = some b := by
  obtain ⟨i, hi⟩ := List.mem_iff_getElem?.mp hch
  obtain ⟨j, hj⟩ := List.mem_iff_getElem?.mp hb
  refine ⟨i, j, ?_⟩
  unfold elemAt
  rw [List.getD_eq_getElem?_getD, hi]
  exact hj

theorem mem_cUnlink (c : Cache) (li lj k : Nat) (x : Buf)
    (hx : x ∈ (cUnlink c li lj).buckets.getD k []) : ∃ ch ∈ c.buckets, x ∈ ch := by
  unfold cUnlink setBucket at hx
  by_cases hk : li = k
  · subst hk
    by_cases hlen : li < c.buckets.length
    · rw [List.getD_eq_getElem?_getD, List.getElem?_set_self hlen] at hx
      have hx2 : x ∈ c.buckets.getD li [] :=
        (List.eraseIdx_sublist (c.buckets.getD li []) lj).mem hx
      exact mem_getD_mem_buckets c li x hx2
    · push_neg at hlen
      rw [List.set_eq_of_length_le hlen] at hx
      exact mem_getD_mem_buckets c li x hx
  · rw [List.getD_eq_getElem?_getD, List.getElem?_set_ne hk,
        ← List.getD_eq_getElem?_getD] at hx
    exact mem_getD_mem_buckets c k x hx

theorem mem_cSplice_tgt (c : Cache) (bid li lj : Nat) (x : Buf)
    (hx : x ∈ (cSplice c bid li lj).buckets.getD bid []) :
    x = lruAt c li lj ∨ ∃ ch ∈ c.buckets, x ∈ ch := by
  unfold cSplice at hx
  by_cases hlen : bid < (cUnlink c li lj).buckets.length
  · unfold setBucket at hx
    rw [List.getD_eq_getElem?_getD, List.getElem?_set_self hlen] at hx
    rcases List.mem_cons.mp hx with h | h
    · exact Or.inl h
    · exact Or.inr (mem_cUnlink c li lj bid x h)
  · push_neg at hlen
    unfold setBucket at hx
    rw [List.set_eq_of_length_le hlen] at hx
    exact Or.inr (mem_cUnlink c li lj bid x hx)

/-! Lemmas about the bget fast path. -/

theorem findHit_eq_none (dev blockno : Nat) (l : List Buf)
    (h : ∀ b ∈ l, ¬ (b.dev = dev ∧ b.blockno = blockno)) :
    findHit dev blockno l = none := by
  induction l with
  | nil => rfl
  | cons b bs ih =>
    unfold findHit
    rw [if_neg (h b (List.mem_cons_self b bs))]
    rw [ih (fun x hx => h x (List.mem_cons_of_mem b hx))]

theorem findHit_some_set (dev blockno : Nat) :
    ∀ (l l2 : List Buf) (r : Buf),
      findHit dev blockno l = some (l2, r) →
      ∃ n bh, l[n]? = some bh ∧ bh.dev = dev ∧ bh.blockno = blockno ∧
        r = bump bh ∧ l2 = l.set n (bump bh) := by
  intro l
  induction l with
  | nil =>
    intro l2 r h
    simp [findHit] at h
  | cons b bs ih =>
    intro l2 r h
    unfold findHit at h
    by_cases hm : b.dev = dev ∧ b.blockno = blockno
    · rw [if_pos hm] at h
      injection h with h2
      cases h2
      exact ⟨0, b, by simp, hm.1, hm.2, rfl, rfl⟩
    · rw [if_neg hm] at h
      cases hfh : findHit dev blockno bs with
      | none =>
        rw [hfh] at h
        exact Option.noConfusion h
      | some p =>
        obtain ⟨bs2, r2⟩ := p
        rw [hfh] at h
        obtain ⟨n, bh, hn, hd, hb2, hr, hset⟩ := ih bs2 r2 hfh
        injection h with h2
        cases h2
        refine ⟨n + 1, bh, ?_, hd, hb2, hr, ?_⟩
        · rw [List.getElem?_cons_succ]
          exact hn
        · rw [hset]
          rfl

/-- What a chain rewritten by a hit looks like at every position: the buf
with the same identity, bumped at the matched position. -/
theorem setHit_preserves (dev blockno q : Nat) (cx : Cache) (tgt2 : List Buf)
    (r : Buf) (hfh : findHit dev blockno (cx.buckets.getD q []) = some (tgt2, r))
    (k j : Nat) (b : Buf) (hb : elemAt cx k j = some b) :
    ∃ b2, elemAt (setBucket cx q tgt2) k j = some b2 ∧ b2.idx = b.idx ∧
      b2.dev = b.dev ∧ b2.blockno = b.blockno ∧
      (1 ≤ b.refcnt → 1 ≤ b2.refcnt) := by
  obtain ⟨n, bh, hn, hd, hbno, hr, hset⟩ := findHit_some_set dev blockno _ tgt2 r hfh
  by_cases hkq : k = q
  · subst hkq
    have hklen : k < cx.buckets.length := elemAt_bucket_lt cx k j b hb
    rw [elemAt_setBucket_self cx k tgt2 j hklen, hset]
    by_cases hjn : n = j
    · subst hjn
      have hbb : b = bh := by
        unfold elemAt at hb
        rw [hb] at hn
        injection hn
      subst hbb
      have hnlen : n < (cx.buckets.getD k []).length := elemAt_lt_length cx k n b hb
      rw [List.getElem?_set_self hnlen]
      refine ⟨bump b, rfl, rfl, rfl, rfl, ?_⟩
      intro h1
      unfold bump
      simp
      omega
    · rw [List.getElem?_set_ne hjn]
      exact ⟨b, hb, rfl, rfl, rfl, fun h => h⟩
  · rw [elemAt_setBucket_ne cx q tgt2 k j hkq]
    exact ⟨b, hb, rfl, rfl, rfl, fun h => h⟩

/-! Equation lemmas for bget. -/

theorem bget_eq (dev blockno : Nat) (c : Cache) :
    bget dev blockno c
      = match findHit dev blockno (c.buckets.getD (hash c.nbuk dev blockno) []) with
        | some (tgt2, r) =>
          (Except.ok (r, setBucket c (hash c.nbuk dev blockno) tgt2), [])
        | none => bgetMiss dev blockno (hash c.nbuk dev blockno) c (scanTop c) := rfl

theorem bgetMiss_none_eq (dev blockno bukId : Nat) (c : Cache) (ls : LockSt) :
    bgetMiss dev blockno bukId c (none, ls) = (Except.error BErr.nullDeref, []) := rfl

theorem bgetMiss_muts (dev blockno bukId : Nat) (c : Cache) (li lj : Nat)
    (ls : LockSt) :
    (bgetMiss dev blockno bukId c (some (li, lj), ls)).2
      = [⟨MKind.unlink, li, ls.evict, ls.bks.contains li⟩,
         ⟨MKind.splice, bukId, (acqB bukId (acqE (relB li ls))).evict,
          (acqB bukId (acqE (relB li ls))).bks.contains bukId⟩] := by
  simp only [bgetMiss]
  cases hfh : findHit dev blockno ((cSplice c bukId li lj).buckets.getD bukId []) with
  | some p =>
    obtain ⟨tgt2, r⟩ := p
    rfl
  | none => rfl

theorem bgetMiss_recheck_eq (dev blockno bukId : Nat) (c : Cache) (li lj : Nat)
    (ls : LockSt) (tgt2 : List Buf) (r : Buf)
    (hfh : findHit dev blockno ((cSplice c bukId li lj).buckets.getD bukId [])
      = some (tgt2, r)) :
    (bgetMiss dev blockno bukId c (some (li, lj), ls)).1
      = Except.ok (r, setBucket (cSplice c bukId li lj) bukId tgt2) := by
  simp only [bgetMiss]
  rw [hfh]

theorem bgetMiss_install_eq (dev blockno bukId : Nat) (c : Cache) (li lj : Nat)
    (ls : LockSt)
    (hfh : findHit dev blockno ((cSplice c bukId li lj).buckets.getD bukId [])
      = none) :
    (bgetMiss dev blockno bukId c (some (li, lj), ls)).1
      = Except.ok (installBuf dev blockno (lruAt c li lj),
          setBucket (cSplice c bukId li lj) bukId
            (installBuf dev blockno (lruAt c li lj)
              :: (cUnlink c li lj).buckets.getD bukId [])) := by
  simp only [bgetMiss]
  rw [hfh]

/-! Survival of a buf through the eviction surgery. -/

theorem elemAt_cUnlink_of_ne (c : Cache) (li lj k j : Nat) (b : Buf)
    (hb : elemAt c k j = some b) (hne : ¬ (k = li ∧ j = lj)) :
    ∃ j1, elemAt (cUnlink c li lj) k j1 = some b := by
  by_cases hk : k = li
  · subst hk
    have hklen : k < c.buckets.length := elemAt_bucket_lt c k j b hb
    have hjne : ¬ j = lj := fun h => hne ⟨rfl, h⟩
    by_cases hj : j < lj
    · refine ⟨j, ?_⟩
      unfold cUnlink
      rw [elemAt_setBucket_self c k _ j hklen, List.getElem?_eraseIdx, if_pos hj]
      exact hb
    · refine ⟨j - 1, ?_⟩
      unfold cUnlink
      rw [elemAt_setBucket_self c k _ (j - 1) hklen, List.getElem?_eraseIdx,
          if_neg (by omega)]
      have hj1 : j - 1 + 1 = j := by omega
      rw [hj1]
      exact hb
  · refine ⟨j, ?_⟩
    unfold cUnlink
    rw [elemAt_setBucket_ne c li _ k j hk]
    exact hb

theorem elemAt_after_cSplice (c : Cache) (bid li lj k j1 : Nat) (b : Buf)
    (hb1 : elemAt (cUnlink c li lj) k j1 = some b) (hklen : k < c.buckets.length) :
    ∃ j2, elemAt (cSplice c bid li lj) k j2 = some b := by
  by_cases hk : k = bid
  · subst hk
    have hlen2 : k < (cUnlink c li lj).buckets.length := by
      rw [cUnlink_len]
      exact hklen
    refine ⟨j1 + 1, ?_⟩
    unfold cSplice
    rw [elemAt_setBucket_self _ k _ (j1 + 1) hlen2, List.getElem?_cons_succ]
    exact hb1
  · refine ⟨j1, ?_⟩
    unfold cSplice
    rw [elemAt_setBucket_ne _ bid _ k j1 hk]
    exact hb1

theorem elemAt_after_install (c : Cache) (bid li lj k j1 : Nat) (b lb2 : Buf)
    (hb1 : elemAt (cUnlink c li lj) k j1 = some b) (hklen : k < c.buckets.length) :
    ∃ j2, elemAt (setBucket (cSplice c bid li lj) bid
      (lb2 :: (cUnlink c li lj).buckets.getD bid [])) k j2 = some b := by
  by_cases hk : k = bid
  · subst hk
    have hlen3 : k < (cSplice c k li lj).buckets.length := by
      rw [cSplice_len]
      exact hklen
    refine ⟨j1 + 1, ?_⟩
    rw [elemAt_setBucket_self _ k _ (j1 + 1) hlen3, List.getElem?_cons_succ]
    exact hb1
  · refine ⟨j1, ?_⟩
    rw [elemAt_setBucket_ne _ bid _ k j1 hk]
    unfold cSplice
    rw [elemAt_setBucket_ne _ bid _ k j1 hk]
    exact hb1

/-! The remaining claim theorems about bget. -/

/-- C2 counterexample. In cacheMove, bget 1 1 misses and evicts the free
buf of bucket 0 into bucket 1; its recorded membership changes are not
all performed with both bcache.lock and the bucket lock held: the unlink
happens before bcache.lock is acquired. -/
theorem bget_unlink_without_evict_cex :
    ¬ ∀ r ∈ (bget 1 1 cacheMove).2, r.evictHeld = true ∧ r.bucketHeld = true := by
  decide

/-- C2 amended: every bucket-chain rewrite of bget happens with that
bucket's lock held; the splice additionally holds bcache.lock, while the
unlink of the candidate is performed before bcache.lock is acquired,
with only the source bucket's lock held. -/
theorem bget_membership_locks (dev blockno : Nat) (c : Cache) :
    ∀ r ∈ (bget dev blockno c).2,
      r.bucketHeld = true ∧
      (r.kind = MKind.splice → r.evictHeld = true) ∧
      (r.kind = MKind.unlink → r.evictHeld = false) := by
  intro r hr
  rw [bget_eq] at hr
  cases hfh : findHit dev blockno (c.buckets.getD (hash c.nbuk dev blockno) []) with
  | some p =>
    obtain ⟨tgt2, r2⟩ := p
    rw [hfh] at hr
    simp at hr
  | none =>
    rw [hfh] at hr
    rcases hpair : scanTop c with ⟨cand, ls⟩
    rw [hpair] at hr
    have hlocks := (scanTop_locks c).1
    rw [hpair] at hlocks
    cases cand with
    | none =>
      have hr2 : r ∈ (bgetMiss dev blockno (hash c.nbuk dev blockno) c
          (none, ls)).2 := hr
      rw [bgetMiss_none_eq] at hr2
      simp at hr2
    | some p =>
      obtain ⟨li, lj⟩ := p
      have hr2 : r ∈ (bgetMiss dev blockno (hash c.nbuk dev blockno) c
          (some (li, lj), ls)).2 := hr
      rw [bgetMiss_muts] at hr2
      have hls : ls = ⟨false, [li]⟩ := by
        simpa [candB] using hlocks
      subst hls
      simp only [List.mem_cons, List.not_mem_nil, or_false] at hr2
      rcases hr2 with h | h
      · subst h
        refine ⟨?_, ?_, ?_⟩
        · simp
        · intro hkind
          exact absurd hkind (by simp)
        · intro hkind
          rfl
      · subst h
        refine ⟨?_, ?_, ?_⟩
        · simp [acqB, acqE, relB, List.erase_cons_head]
        · intro hkind
          rfl
        · intro hkind
          exact absurd hkind (by simp)

/-- C2 witness: the splice record of the concrete eviction in cacheMove
satisfies the amended lock discipline. -/
theorem bget_membership_locks_witness :
    (⟨MKind.splice, 1, true, true⟩ : MutRec).bucketHeld = true ∧
    ((⟨MKind.splice, 1, true, true⟩ : MutRec).kind = MKind.splice →
      (⟨MKind.splice, 1, true, true⟩ : MutRec).evictHeld = true) ∧
    ((⟨MKind.splice, 1, true, true⟩ : MutRec).kind = MKind.unlink →
      (⟨MKind.splice, 1, true, true⟩ : MutRec).evictHeld = false) :=
  bget_membership_locks 1 1 cacheMove ⟨MKind.splice, 1, true, true⟩ (by decide)

/-- C3. On a full miss with at least one free buf, bget evicts the buf at
the scan position holding the globally maximal timestamp among free bufs,
ties resolved in favor of the buf later in scan order, reassigns its
identity and returns it. -/
theorem bget_evicts_lru (dev blockno : Nat) (c : Cache)
    (hmiss : ∀ ch ∈ c.buckets, ∀ b ∈ ch, ¬ (b.dev = dev ∧ b.blockno = blockno))
    (hfree : ∃ ch ∈ c.buckets, ∃ b ∈ ch, b.refcnt = 0) :
    ∃ li lj b c2,
      elemAt c li lj = some b ∧ b.refcnt = 0 ∧
      (∀ i j b2, elemAt c i j = some b2 → b2.refcnt = 0 →
        b2.timestamp ≤ b.timestamp) ∧
      (∀ i j b2, elemAt c i j = some b2 → b2.refcnt = 0 →
        lexLt (li, lj) (i, j) → b2.timestamp < b.timestamp) ∧
      (bget dev blockno c).1 = Except.ok (installBuf dev blockno b, c2) := by
  have hmiss1 : ∀ i, findHit dev blockno (c.buckets.getD i []) = none := by
    intro i
    apply findHit_eq_none
    intro x hx
    obtain ⟨ch, hch, hxch⟩ := mem_getD_mem_buckets c i x hx
    exact hmiss ch hch x hxch
  cases hscan : (scanTop c).1 with
  | none =>
    exfalso
    obtain ⟨ch, hch, b, hbch, hrc⟩ := hfree
    obtain ⟨i, j, hel⟩ := mem_elemAt c ch b hch hbch
    exact scanTop_none_no_free c hscan i j b hel hrc
  | some p =>
    obtain ⟨li, lj⟩ := p
    obtain ⟨b, hb, hrc, hub, hstr⟩ := scanTop_some_lru c li lj hscan
    have hbukmiss : findHit dev blockno
        ((cSplice c (hash c.nbuk dev blockno) li lj).buckets.getD
          (hash c.nbuk dev blockno) []) = none := by
      apply findHit_eq_none
      intro x hx
      rcases mem_cSplice_tgt c (hash c.nbuk dev blockno) li lj x hx with h | ⟨ch, hch, hxch⟩
      · obtain ⟨ch, hch, hbc⟩ := elemAt_mem c li lj b hb
        rw [h, lruAt_eq c li lj b hb]
        exact hmiss ch hch b hbc
      · exact hmiss ch hch x hxch
    have hres : (bget dev blockno c).1
        = Except.ok (installBuf dev blockno b,
            setBucket (cSplice c (hash c.nbuk dev blockno) li lj)
              (hash c.nbuk dev blockno)
              (installBuf dev blockno b
                :: (cUnlink c li lj).buckets.getD (hash c.nbuk dev blockno) [])) := by
      rcases hpair : scanTop c with ⟨cand, ls⟩
      rw [hpair] at hscan
      simp at hscan
      subst hscan
      rw [bget_eq, hmiss1 (hash c.nbuk dev blockno)]
      show (bgetMiss dev blockno (hash c.nbuk dev blockno) c (scanTop c)).1 = _
      rw [hpair]
      rw [bgetMiss_install_eq dev blockno (hash c.nbuk dev blockno) c li lj ls hbukmiss]
      rw [lruAt_eq c li lj b hb]
    exact ⟨li, lj, b, _, hb, hrc, hub, hstr, hres⟩

/-- C3 witness: in cacheLRU, reading the missing block (1,5) evicts the
single free buf, which trivially has the maximal timestamp among free
bufs. -/
theorem bget_evicts_lru_witness :
    ∃ li lj b c2,
      elemAt cacheLRU li lj = some b ∧ b.refcnt = 0 ∧
      (∀ i j b2, elemAt cacheLRU i j = some b2 → b2.refcnt = 0 →
        b2.timestamp ≤ b.timestamp) ∧
      (∀ i j b2, elemAt cacheLRU i j = some b2 → b2.refcnt = 0 →
        lexLt (li, lj) (i, j) → b2.timestamp < b.timestamp) ∧
      (bget 1 5 cacheLRU).1 = Except.ok (installBuf 1 5 b, c2) :=
  bget_evicts_lru 1 5 cacheLRU (by decide) (by decide)

/-- C10. A buf with refcnt at least 1 keeps its bucket and its identity
through every operation: bget never selects it for eviction (the scan
only picks bufs with refcnt 0), and brelse, bpin and bunpin never touch
dev or blockno. -/
theorem pinned_identity_stable (c : Cache) (k j : Nat) (b : Buf)
    (hb : elemAt c k j = some b) (hrc : 1 ≤ b.refcnt) :
    (∀ dev blockno r c2 muts, bget dev blockno c = (Except.ok (r, c2), muts) →
      ∃ j2 b2, elemAt c2 k j2 = some b2 ∧ b2.idx = b.idx ∧ b2.dev = b.dev ∧
        b2.blockno = b.blockno ∧ 1 ≤ b2.refcnt) ∧
    (∀ t bp c2 lk, brelse t bp c = Except.ok (c2, lk) →
      ∃ b2, elemAt c2 k j = some b2 ∧ b2.idx = b.idx ∧ b2.dev = b.dev ∧
        b2.blockno = b.blockno) ∧
    (∀ bp, ∃ b2, elemAt (bpin bp c).1 k j = some b2 ∧ b2.idx = b.idx ∧
      b2.dev = b.dev ∧ b2.blockno = b.blockno) ∧
    (∀ t bp, ∃ b2, elemAt (bunpin t bp c).1 k j = some b2 ∧ b2.idx = b.idx ∧
      b2.dev = b.dev ∧ b2.blockno = b.blockno) := by
  refine ⟨?_, ?_, ?_, ?_⟩
  · intro dev blockno r c2 muts hrun
    rw [bget_eq] at hrun
    cases hfh : findHit dev blockno (c.buckets.getD (hash c.nbuk dev blockno) []) with
    | some p =>
      obtain ⟨tgt2, rr⟩ := p
      rw [hfh] at hrun
      have h1 : (Except.ok (rr, setBucket c (hash c.nbuk dev blockno) tgt2)
            : Except BErr (Buf × Cache)) = Except.ok (r, c2) := by
        injection hrun with h1 h2
      injection h1 with h3
      injection h3 with h4 h5
      obtain ⟨b2, hb2, hidx, hdev, hbno, hrcp⟩ :=
        setHit_preserves dev blockno (hash c.nbuk dev blockno) c tgt2 rr hfh k j b hb
      refine ⟨j, b2, ?_, hidx, hdev, hbno, hrcp hrc⟩
      rw [← h5]
      exact hb2
    | none =>
      rw [hfh] at hrun
      rcases hpair : scanTop c with ⟨cand, ls⟩
      rw [hpair] at hrun
      cases cand with
      | none =>
        have hrun2 : bgetMiss dev blockno (hash c.nbuk dev blockno) c
            (none, ls) = (Except.ok (r, c2), muts) := hrun
        rw [bgetMiss_none_eq] at hrun2
        exfalso
        injection hrun2 with h1 h2
        exact Except.noConfusion h1
      | some p =>
        obtain ⟨li, lj⟩ := p
        have hscan : (scanTop c).1 = some (li, lj) := by rw [hpair]
        obtain ⟨bc, hbc, hbcrc, -, -⟩ := scanTop_some_lru c li lj hscan
        have hne : ¬ (k = li ∧ j = lj) := by
          rintro ⟨h1, h2⟩
          subst h1
          subst h2
          rw [hb] at hbc
          injection hbc with hh
          rw [← hh] at hbcrc
          omega
        obtain ⟨j1, hb1⟩ := elemAt_cUnlink_of_ne c li lj k j b hb hne
        have hklen : k < c.buckets.length := elemAt_bucket_lt c k j b hb
        have hrun2 : bgetMiss dev blockno (hash c.nbuk dev blockno) c
            (some (li, lj), ls) = (Except.ok (r, c2), muts) := hrun
        have h1 : (bgetMiss dev blockno (hash c.nbuk dev blockno) c
            (some (li, lj), ls)).1 = Except.ok (r, c2) := by
          rw [hrun2]
        cases hfh2 : findHit dev blockno
            ((cSplice c (hash c.nbuk dev blockno) li lj).buckets.getD
              (hash c.nbuk dev blockno) []) with
        | some p2 =>
          obtain ⟨tgt2, rr⟩ := p2
          rw [bgetMiss_recheck_eq dev blockno (hash c.nbuk dev blockno) c li lj
            ls tgt2 rr hfh2] at h1
          injection h1 with h3
          injection h3 with h4 h5
          obtain ⟨j2, hb2⟩ := elemAt_after_cSplice c (hash c.nbuk dev blockno)
            li lj k j1 b hb1 hklen
          obtain ⟨b2, hb3, hidx, hdev, hbno, hrcp⟩ :=
            setHit_preserves dev blockno (hash c.nbuk dev blockno)
              (cSplice c (hash c.nbuk dev blockno) li lj) tgt2 rr hfh2 k j2 b hb2
          refine ⟨j2, b2, ?_, hidx, hdev, hbno, hrcp hrc⟩
          rw [← h5]
          exact hb3
        | none =>
          rw [bgetMiss_install_eq dev blockno (hash c.nbuk dev blockno) c li lj
            ls hfh2] at h1
          injection h1 with h3
          injection h3 with h4 h5
          obtain ⟨j2, hb2⟩ := elemAt_after_install c (hash c.nbuk dev blockno)
            li lj k j1 b (installBuf dev blockno (lruAt c li lj)) hb1 hklen
          refine ⟨j2, b, ?_, rfl, rfl, rfl, hrc⟩
          rw [← h5]
          exact hb2
  · intro t bp c2 lk hok
    by_cases hs : bp.slock = false
    · unfold brelse at hok
      rw [if_pos hs] at hok
      exact absurd hok (by simp)
    · unfold brelse at hok
      rw [if_neg hs] at hok
      injection hok with h1
      injection h1 with h2 h3
      rw [← h2, elemAt_updBuf, hb]
      by_cases hidx : b.idx = bp.idx
      · exact ⟨_, rfl, by simp [hidx]⟩
      · exact ⟨_, rfl, by simp [hidx]⟩
  · intro bp
    simp only [bpin]
    rw [elemAt_updBuf, hb]
    by_cases hidx : b.idx = bp.idx
    · exact ⟨_, rfl, by simp [hidx]⟩
    · exact ⟨_, rfl, by simp [hidx]⟩
  · intro t bp
    simp only [bunpin]
    rw [elemAt_updBuf, hb]
    by_cases hidx : b.idx = bp.idx
    · exact ⟨_, rfl, by simp [hidx]⟩
    · exact ⟨_, rfl, by simp [hidx]⟩

/-- C10 witness: the pinned buf of cacheLRU keeps bucket 1 and its
identity (1,1) across the eviction performed by bget 1 5. -/
theorem pinned_identity_stable_witness :
    ∃ j2 b2,
      elemAt ⟨2, [[], [⟨0, 1, 5, false, 1, 7, true⟩, ⟨1, 1, 1, true, 1, 3, true⟩]]⟩
          1 j2 = some b2 ∧
      b2.idx = bufPinnedLRU.idx ∧ b2.dev = bufPinnedLRU.dev ∧
      b2.blockno = bufPinnedLRU.blockno ∧ 1 ≤ b2.refcnt :=
  (pinned_identity_stable cacheLRU 1 0 bufPinnedLRU rfl (by decide)).1 1 5
    ⟨0, 1, 5, false, 1, 7, true⟩
    ⟨2, [[], [⟨0, 1, 5, false, 1, 7, true⟩, ⟨1, 1, 1, true, 1, 3, true⟩]]⟩
    [⟨MKind.unlink, 0, false, true⟩, ⟨MKind.splice, 1, true, true⟩]
    rfl

/-- C1. At the S3 scenario state cachePinned (every refcnt positive) a
missing block makes bget dereference the null prev_lru_b pointer: the
model returns the nullDeref fault, not the panicNoBuffers outcome of line
146, and no bucket chain was rewritten before the fault. -/
theorem bget_pinned_null_deref :
    (bget 1 3 cachePinned).1 = Except.error BErr.nullDeref ∧
    (bget 1 3 cachePinned).2 = [] := by
  constructor
  · rfl
  · rfl

end XV6
